import Mathlib

/- Verification development for cpp/serve/sampler.cc (the CPU sampler of an
LLM serving engine).  The C++ code is shallowly embedded: probability values
(32-bit floats in the source) are modelled as rationals, token indices as
integers with -1 as the "no selection" sentinel, and every fatal ICHECK
failure is modelled by an `Option`-valued function returning `none`. -/

namespace MLCSampler

/-- The constant eps_ = 1e-5 of CPUSampler. -/
def eps : ℚ := 1 / 100000

/-- The constant one = 1.0f - 1e-5f of SampleTopPFromProb. -/
def one : ℚ := 1 - 1 / 100000

/-- The (probability, index) pairs of a row as scanned from offset i: the view
of `p_prob` that the filtering loop of SampleTopPFromProb walks. -/
def enumZ : List ℚ → ℤ → List (ℚ × ℤ)
  | [], _ => []
  | p :: rest, i => (p, i) :: enumZ rest (i + 1)

/-- The argmax scan of the `top_p == 0` branch of SampleTopPFromProb:
`max_prob` starts at 0, `argmax_pos` at -1, and the position is updated only
on a strict increase (`p_prob[i] > max_prob`). -/
def argmaxAux : List ℚ → ℤ → ℚ → ℤ → ℤ
  | [], _, _, pos => pos
  | p :: rest, i, maxProb, pos =>
    if maxProb < p then argmaxAux rest (i + 1) p i
    else argmaxAux rest (i + 1) maxProb pos

/-- The argmax position computed by the `top_p == 0` branch. -/
def argmax_pos (row : List ℚ) : ℤ := argmaxAux row 0 0 (-1)

/-- The realized-distribution write of the `top_p == 0` branch:
`p_output_prob[i] = i == argmax_pos ? 1.0 : 0.0`. -/
def onehotOut (row : List ℚ) (pos : ℤ) : List ℚ :=
  (List.range row.length).map (fun j : ℕ => if (j : ℤ) = pos then 1 else 0)

/-- The `top_p >= one` branch of SampleTopPFromProb: inverse-CDF scan with a
running sum; falling off the end is the fatal `ICHECK(false)` ("possibly prob
distribution contains NAN"), modelled as `none`. -/
def invCDF (u : ℚ) : List ℚ → ℤ → ℚ → Option (ℚ × ℤ)
  | [], _, _ => none
  | p :: rest, i, probSum =>
    if u ≤ probSum + p then some (p, i) else invCDF u rest (i + 1) (probSum + p)

/-- The filtering loop of `sample_top_p_with_filter`: collect every scanned
entry with `p_prob[i] >= cuttoff`, and break out of the scan as soon as
`cutoff_sum > 1 - cuttoff`. -/
def filterScan (cuttoff : ℚ) : List ℚ → ℤ → ℚ → List (ℚ × ℤ)
  | [], _, _ => []
  | p :: rest, i, cutoffSum =>
    if cuttoff ≤ p then
      (p, i) ::
        (if 1 - cuttoff < cutoffSum + p then []
         else filterScan cuttoff rest (i + 1) (cutoffSum + p))
    else filterScan cuttoff rest (i + 1) cutoffSum

/-- The sort order of the comparator `fcmp` (`lhs.first > rhs.first`):
element a may precede element b when `b.first <= a.first`. -/
def descRel (a b : ℚ × ℤ) : Prop := b.1 ≤ a.1

instance : DecidableRel descRel := fun a b => inferInstanceAs (Decidable (b.1 ≤ a.1))

instance : IsTotal (ℚ × ℤ) descRel := ⟨fun a b => le_total b.1 a.1⟩

instance : IsTrans (ℚ × ℤ) descRel := ⟨fun _ _ _ h1 h2 => le_trans h2 h1⟩

/-- The `std::sort(data.begin(), data.end(), fcmp)` call, modelled as an
insertion sort for `descRel` (any comparison sort agreeing with `fcmp`;
tie order is unspecified in the source). -/
def sortDesc (l : List (ℚ × ℤ)) : List (ℚ × ℤ) := List.insertionSort descRel l

/-- The "compute top_p_sum" loop: while `cum_sum_prob < top_p`, add the next
probability to both `top_p_sum` and `cum_sum_prob` and overwrite the entry's
first component with the running `cum_sum_prob`; entries after the break keep
their raw probability.  Returns (mutated list, cum_sum_prob, top_p_sum). -/
def computeTopPSum (top_p : ℚ) : List (ℚ × ℤ) → ℚ → ℚ → List (ℚ × ℤ) × ℚ × ℚ
  | [], cum, tps => ([], cum, tps)
  | (p, idx) :: rest, cum, tps =>
    if cum < top_p then
      let r := computeTopPSum top_p rest (cum + p) (tps + p)
      ((cum + p, idx) :: r.1, r.2)
    else ((p, idx) :: rest, cum, tps)

/-- The selection loop: return the first entry whose stored value divided by
`top_p_sum` exceeds the uniform sample, remembering `last_cum_sum_prob`;
`none` when no entry qualifies (the source then falls through to the
last-candidate return). -/
def selectLoop (u tps : ℚ) : List (ℚ × ℤ) → ℚ → Option (ℚ × ℤ)
  | [], _ => none
  | x :: rest, last =>
    if u < x.1 / tps then some (x.1 - last, x.2) else selectLoop u tps rest x.1

/-- The stage of `sample_top_p_with_filter` acting on the sorted candidate
list: empty-candidate sentinel, fast exit, the top_p_sum computation with its
insufficient-mass sentinel, and the selection loop.  `( -1, -1)` is the
"no selection" sentinel.  When the selection loop falls through, the source
returns `data.back().first - last_cum_sum_prob` where `last_cum_sum_prob` has
just been set to `data.back().first`, hence the probability 0 in the fallback
return. -/
def sampleFromSorted (top_p u cuttoff : ℚ) : List (ℚ × ℤ) → ℚ × ℤ
  | [] => (-1, -1)
  | d0 :: drest =>
    if u < d0.1 / top_p then (d0.1, d0.2)
    else
      let r := computeTopPSum top_p (d0 :: drest) 0 0
      if r.2.1 < top_p ∧ cuttoff ≠ 0 then (-1, -1)
      else
        match selectLoop u r.2.2 r.1 0 with
        | some res => res
        | none => (0, (r.1.getLastD (0, -1)).2)

/-- The `sample_top_p_with_filter` lambda of SampleTopPFromProb: filter with
the cutoff, sort the candidates descending, then sample from them. -/
def sample_top_p_with_filter (row : List ℚ) (top_p u cuttoff : ℚ) : ℚ × ℤ :=
  sampleFromSorted top_p u cuttoff (sortDesc (filterScan cuttoff row 0 0))

/-- SampleTopPFromProb on one row (the slice at `unit_offset`): the `top_p == 0`
argmax branch, the `top_p >= one` inverse-CDF branch, and otherwise the
filtered pass at cutoff `top_p / 1024` followed, when it returns the sentinel,
by the cutoff-0 pass whose failure is the fatal `ICHECK_GE(second, 0)`
(modelled as `none`). -/
def SampleTopPFromProb (row : List ℚ) (top_p u : ℚ) : Option (ℚ × ℤ) :=
  if top_p = 0 then some (1, argmax_pos row)
  else if one ≤ top_p then invCDF u row 0 0
  else
    let s1 := sample_top_p_with_filter row top_p u (top_p / 1024)
    if 0 ≤ s1.2 then some s1
    else
      let s2 := sample_top_p_with_filter row top_p u 0
      if 0 ≤ s2.2 then some s2 else none

/-- The realized distribution written into `output_prob_dist` when the caller
requests it: the one-hot vector in the `top_p == 0` branch, and a copy of the
input row otherwise (`CopyFromBytes` before sampling). -/
def outputProbDist (row : List ℚ) (top_p : ℚ) : List ℚ :=
  if top_p = 0 then onehotOut row (argmax_pos row) else row

/-- The resolved per-request sampling parameters (GenerationConfig fields the
sampler reads). -/
structure GenerationConfig where
  temperature : ℚ
  top_p : ℚ

/-- The top_p actually passed to SampleTopPFromProb:
`generation_cfg[i]->temperature < eps_ ? 0.0 : generation_cfg[i]->top_p`. -/
def resolvedTopP (cfg : GenerationConfig) : ℚ :=
  if cfg.temperature < eps then 0 else cfg.top_p

/-- Residency of the input probability tensor. -/
inductive Device where
  | cpu : Device
  | accel : Device
deriving DecidableEq

/-- The capacity-growth loop of CPUSampler::CopyProbsToCPU:
`while (init_size < num_tokens) init_size *= 2;`.  The extra `0 < s` guard
makes the recursion well-founded; the source always starts from a capacity
of at least 32, where the guard is vacuous. -/
def grow (s n : ℕ) : ℕ :=
  if h : s < n ∧ 0 < s then grow (2 * s) n else s
termination_by n - s
decreasing_by omega

/-- CPUSampler::CopyProbsToCPU acting on the cached host buffer, modelled by
its (row capacity, vocab width) pair (`none` = no buffer allocated yet).
The source first ICHECKs that the input is not host-resident, then ICHECKs
that the vocab width matches any existing allocation; both fatal checks are
modelled as `none` results.  Otherwise the capacity is doubled from its
current value (initially 32) until it covers `numTokens`. -/
def CopyProbsToCPU (dev : Device) (cache : Option (ℕ × ℕ)) (numTokens vocab : ℕ) :
    Option (ℕ × ℕ) :=
  if dev = Device.cpu then none
  else
    match cache with
    | some (cap, w) => if w ≠ vocab then none else some (grow cap numTokens, vocab)
    | none => some (grow 32 numTokens, vocab)

/-- A sequence of CopyProbsToCPU calls at a fixed vocab width on
accelerator-resident inputs, threading the cached buffer. -/
def runCalls (vocab : ℕ) : List ℕ → Option (ℕ × ℕ) → Option (ℕ × ℕ)
  | [], cache => cache
  | n :: rest, cache => runCalls vocab rest (CopyProbsToCPU Device.accel cache n vocab)

/-- The work done for row i of BatchSampleTokens: one SampleTopPFromProb call
on row i with that request's resolved top_p and that request's uniform draw. -/
def sampleRow (rows : List (List ℚ)) (cfgs : List GenerationConfig) (draws : List ℚ)
    (i : ℕ) : Option (ℚ × ℤ) :=
  SampleTopPFromProb (rows.getD i []) (resolvedTopP (cfgs.getD i ⟨1, 1⟩)) (draws.getD i 0)

/-- The parallel-for of BatchSampleTokens under an explicit schedule: the
worker pool processes row indices in some order `sched`, each task writing
only its own output slot. -/
def runSchedule (rows : List (List ℚ)) (cfgs : List GenerationConfig) (draws : List ℚ)
    (n : ℕ) (sched : List ℕ) : List (Option (ℚ × ℤ)) :=
  sched.foldl (fun out i => out.set i (sampleRow rows cfgs draws i))
    (List.replicate n none)

/-- CPUSampler::BatchSampleTokens: copy the probabilities to the host (fatal
when the input is already host-resident, by the ICHECK in CopyProbsToCPU),
then sample every row. -/
def BatchSampleTokens (dev : Device) (rows : List (List ℚ)) (cfgs : List GenerationConfig)
    (draws : List ℚ) : Option (List (Option (ℚ × ℤ))) :=
  if dev = Device.cpu then none
  else some ((List.range rows.length).map (fun i => sampleRow rows cfgs draws i))

/-- The elementwise residual `max(p_probs[j] - p_qdist[j], 0)` computed by the
first rejection loop of BatchVerifyDraftTokens. -/
def residualRow (pRow qDist : List ℚ) : List ℚ :=
  (List.range pRow.length).map (fun j => max (pRow.getD j 0 - qDist.getD j 0) 0)

/-- The in-place renormalization `p_probs[j] /= sum_v` performed by the second
rejection loop of BatchVerifyDraftTokens. -/
def renormRow (pRow qDist : List ℚ) : List ℚ :=
  (residualRow pRow qDist).map (fun x => x / (residualRow pRow qDist).sum)

/-- The verification loop of CPUSampler::BatchVerifyDraftTokens for one
sequence.  Each draft position carries (target row, draft token, draft token
probability, full draft distribution); `rng` is the stream of uniform draws of
this sequence's generator; the state is (committed token history, returned
accepted-tokens list).  A rejected position replaces the row by the normalized
residual `max(p - q, 0)`, resamples from it, commits the replacement, records
the original draft token, and breaks out of the loop. -/
def verifySeq (cfg : GenerationConfig) :
    List (List ℚ × ℕ × ℚ × List ℚ) → List ℚ → List ℤ × List ℤ →
    Option (List ℤ × List ℤ)
  | [], _, st => some st
  | (pRow, curToken, qValue, qDist) :: rest, rng, st =>
    if qValue ≤ pRow.getD curToken 0 then
      verifySeq cfg rest rng (st.1 ++ [(curToken : ℤ)], st.2 ++ [(curToken : ℤ)])
    else if rng.headD 0 < pRow.getD curToken 0 / (qValue + eps) then
      verifySeq cfg rest rng.tail (st.1 ++ [(curToken : ℤ)], st.2 ++ [(curToken : ℤ)])
    else
      match SampleTopPFromProb (renormRow pRow qDist) (resolvedTopP cfg) (rng.tail.headD 0) with
      | none => none
      | some res => some (st.1 ++ [res.2], st.2 ++ [(curToken : ℤ)])

/-- CPUSampler::BatchVerifyDraftTokens: copy the probabilities to the host
(fatal when the input is already host-resident), then verify every sequence
independently. -/
def BatchVerifyDraftTokens (dev : Device)
    (seqs : List (GenerationConfig × List (List ℚ × ℕ × ℚ × List ℚ) × List ℚ)) :
    Option (List (Option (List ℤ × List ℤ))) :=
  if dev = Device.cpu then none
  else some (seqs.map (fun s => verifySeq s.1 s.2.1 s.2.2 ([], [])))

/-! Helper lemmas. -/

lemma getD_mem_of_lt {α : Type} {l : List α} {j : ℕ} {d : α} (h : j < l.length) :
    l.getD j d ∈ l := by
  rw [List.getD_eq_getElem?_getD, List.getElem?_eq_getElem h]
  exact List.getElem_mem h

lemma argmaxAux_const (l : List ℚ) : ∀ (i pos : ℤ) (m : ℚ), (∀ x ∈ l, x ≤ m) →
    argmaxAux l i m pos = pos := by
  induction l with
  | nil => intro i pos m _; rfl
  | cons p rest ih =>
    intro i pos m h
    simp only [argmaxAux, if_neg (not_lt.mpr (h p (List.mem_cons_self p rest)))]
    exact ih (i + 1) pos m (fun x hx => h x (List.mem_cons_of_mem p hx))

lemma argmaxAux_max (l : List ℚ) : ∀ (i pos : ℤ) (m : ℚ), (∃ x ∈ l, m < x) →
    ∃ k : ℕ, k < l.length ∧ argmaxAux l i m pos = i + k ∧ m < l.getD k 0 ∧
      (∀ j, j < l.length → l.getD j 0 ≤ l.getD k 0) ∧
      (∀ j, j < k → l.getD j 0 < l.getD k 0) := by
  induction l with
  | nil => intro i pos m h; simp at h
  | cons p rest ih =>
    intro i pos m h
    by_cases hp : m < p
    · by_cases hrest : ∃ x ∈ rest, p < x
      · obtain ⟨k, hk, heq, hgt, hmax, hfirst⟩ := ih (i + 1) i p hrest
        refine ⟨k + 1, by simpa using hk, ?_, by simpa using hp.trans hgt, ?_, ?_⟩
        · simp only [argmaxAux, if_pos hp, heq]; push_cast; ring
        · intro j hj
          cases j with
          | zero => simpa using le_of_lt hgt
          | succ j' =>
            have hj' : j' < rest.length := by simp at hj; omega
            simpa using hmax j' hj'
        · intro j hj
          cases j with
          | zero => simpa using hgt
          | succ j' => simpa using hfirst j' (by omega)
      · push_neg at hrest
        refine ⟨0, by simp, ?_, by simpa using hp, ?_, fun j hj => absurd hj (by omega)⟩
        · simp only [argmaxAux, if_pos hp]
          rw [argmaxAux_const rest (i + 1) i p hrest]
          simp
        · intro j hj
          cases j with
          | zero => simp
          | succ j' =>
            have hj' : j' < rest.length := by simp at hj; omega
            simpa using hrest (rest.getD j' 0) (getD_mem_of_lt hj')
    · have hrest : ∃ x ∈ rest, m < x := by
        obtain ⟨x, hx, hmx⟩ := h
        rcases List.mem_cons.mp hx with rfl | hx'
        · exact absurd hmx hp
        · exact ⟨x, hx', hmx⟩
      obtain ⟨k, hk, heq, hgt, hmax, hfirst⟩ := ih (i + 1) pos m hrest
      have hpm : p ≤ m := not_lt.mp hp
      refine ⟨k + 1, by simpa using hk, ?_, by simpa using hgt, ?_, ?_⟩
      · simp only [argmaxAux, if_neg hp, heq]; push_cast; ring
      · intro j hj
        cases j with
        | zero => simpa using le_of_lt (lt_of_le_of_lt hpm hgt)
        | succ j' =>
          have hj' : j' < rest.length := by simp at hj; omega
          simpa using hmax j' hj'
      · intro j hj
        cases j with
        | zero => simpa using lt_of_le_of_lt hpm hgt
        | succ j' => simpa using hfirst j' (by omega)

lemma renormRow_getD (pRow qDist : List ℚ) {j : ℕ} (hj : j < pRow.length) :
    (renormRow pRow qDist).getD j 0 =
      max (pRow.getD j 0 - qDist.getD j 0) 0 / (residualRow pRow qDist).sum := by
  have h1 : j < (residualRow pRow qDist).length := by simpa [residualRow] using hj
  have h2 : j < (renormRow pRow qDist).length := by simpa [renormRow] using h1
  rw [List.getD_eq_getElem?_getD, List.getElem?_eq_getElem h2]
  simp [renormRow, residualRow]

/-! Claim theorems. -/

/-- C6: for a distribution row with a positive entry, `Sample` with `top_p = 0`
returns the index of the maximum element (first occurrence on ties: every
earlier entry is strictly smaller) with achieved probability exactly 1, and
the realized distribution, when requested, is the one-hot vector at that
index. -/
theorem c6_topp_zero_argmax (row : List ℚ) (u : ℚ)
    (h : ∃ j, j < row.length ∧ 0 < row.getD j 0) :
    ∃ k : ℕ, k < row.length ∧ argmax_pos row = (k : ℤ) ∧
      SampleTopPFromProb row 0 u = some (1, (k : ℤ)) ∧
      (∀ j, j < row.length → row.getD j 0 ≤ row.getD k 0) ∧
      (∀ j, j < k → row.getD j 0 < row.getD k 0) ∧
      outputProbDist row 0 = (List.range row.length).map (fun j => if j = k then (1 : ℚ) else 0) := by
  obtain ⟨j0, hj0, hpos⟩ := h
  have hex : ∃ x ∈ row, (0 : ℚ) < x := ⟨row.getD j0 0, getD_mem_of_lt hj0, hpos⟩
  obtain ⟨k, hk, heq, _hgt, hmax, hfirst⟩ := argmaxAux_max row 0 (-1) 0 hex
  have hargm : argmax_pos row = (k : ℤ) := by simpa [argmax_pos] using heq
  refine ⟨k, hk, hargm, by simp [SampleTopPFromProb, hargm], hmax, hfirst, ?_⟩
  have hfun : (fun j : ℕ => if (j : ℤ) = (k : ℤ) then (1 : ℚ) else 0) =
      (fun j : ℕ => if j = k then (1 : ℚ) else 0) := by
    funext a
    simp [Nat.cast_inj]
  rw [outputProbDist, if_pos rfl, onehotOut, hargm, hfun]

/-- C6 witness: the row [1/4, 1/2, 1/4] has a positive entry, and argmax
sampling selects index 1. -/
theorem c6_witness :
    (∃ j, j < List.length [(1:ℚ)/4, 1/2, 1/4] ∧ 0 < List.getD [(1:ℚ)/4, 1/2, 1/4] j 0) ∧
    (∃ k : ℕ, k < List.length [(1:ℚ)/4, 1/2, 1/4] ∧ argmax_pos [(1:ℚ)/4, 1/2, 1/4] = (k : ℤ) ∧
      SampleTopPFromProb [(1:ℚ)/4, 1/2, 1/4] 0 0 = some (1, (k : ℤ)) ∧
      (∀ j, j < List.length [(1:ℚ)/4, 1/2, 1/4] →
        List.getD [(1:ℚ)/4, 1/2, 1/4] j 0 ≤ List.getD [(1:ℚ)/4, 1/2, 1/4] k 0) ∧
      (∀ j, j < k → List.getD [(1:ℚ)/4, 1/2, 1/4] j 0 < List.getD [(1:ℚ)/4, 1/2, 1/4] k 0) ∧
      outputProbDist [(1:ℚ)/4, 1/2, 1/4] 0 =
        (List.range (List.length [(1:ℚ)/4, 1/2, 1/4])).map (fun j => if j = k then (1 : ℚ) else 0)) :=
  ⟨⟨1, by norm_num⟩, c6_topp_zero_argmax [(1:ℚ)/4, 1/2, 1/4] 0 ⟨1, by norm_num⟩⟩

/-- C10: when every entry of the row is nonpositive (for example an all-zero
row), the `top_p = 0` branch returns token id -1 (not a valid vocabulary
index) with probability 1, and the realized distribution is written as all
zeros. -/
theorem c10_nonpositive_row (row : List ℚ) (u : ℚ) (h : ∀ x ∈ row, x ≤ 0) :
    SampleTopPFromProb row 0 u = some (1, -1) ∧
    (∀ j, j < row.length → ((j : ℤ) ≠ argmax_pos row)) ∧
    outputProbDist row 0 = List.replicate row.length 0 := by
  have harg : argmax_pos row = -1 := by
    simpa [argmax_pos] using argmaxAux_const row 0 (-1) 0 h
  refine ⟨by simp [SampleTopPFromProb, harg], ?_, ?_⟩
  · intro j hj
    rw [harg]
    omega
  · have hfun : (fun j : ℕ => if (j : ℤ) = -1 then (1 : ℚ) else 0) = fun _ => (0 : ℚ) := by
      funext a
      rw [if_neg (by omega)]
    rw [outputProbDist, if_pos rfl, onehotOut, harg, hfun, List.map_const', List.length_range]

/-- C10 witness: the all-zero two-token row. -/
theorem c10_witness :
    (∀ x ∈ [(0:ℚ), 0], x ≤ 0) ∧
    SampleTopPFromProb [(0:ℚ), 0] 0 0 = some (1, -1) ∧
    (∀ j, j < List.length [(0:ℚ), 0] → ((j : ℤ) ≠ argmax_pos [(0:ℚ), 0])) ∧
    outputProbDist [(0:ℚ), 0] 0 = List.replicate (List.length [(0:ℚ), 0]) 0 :=
  ⟨by norm_num, c10_nonpositive_row [(0:ℚ), 0] 0 (by norm_num)⟩

/-- C7: when, after sorting the filtered candidates in descending order, the
uniform draw is below `candidates[0].first / top_p`, the pass returns the top
candidate's raw probability and index immediately. -/
theorem c7_fast_exit (row : List ℚ) (top_p u cuttoff : ℚ) (d0 : ℚ × ℤ)
    (drest : List (ℚ × ℤ))
    (hsort : sortDesc (filterScan cuttoff row 0 0) = d0 :: drest)
    (hfast : u < d0.1 / top_p) :
    sample_top_p_with_filter row top_p u cuttoff = (d0.1, d0.2) := by
  unfold sample_top_p_with_filter
  rw [hsort]
  simp [sampleFromSorted, hfast]

/-- C7 witness: the end-to-end example of the specification — distribution
[0.5, 0.3, 0.2], top_p = 0.7, uniform draw 0.1 fast-exits with (0.5, 0). -/
theorem c7_witness :
    sortDesc (filterScan ((7:ℚ)/10/1024) [(1:ℚ)/2, 3/10, 1/5] 0 0) =
      ((1:ℚ)/2, (0:ℤ)) :: [((3:ℚ)/10, (1:ℤ)), ((1:ℚ)/5, (2:ℤ))] ∧
    ((1:ℚ)/10 < ((1:ℚ)/2) / ((7:ℚ)/10)) ∧
    sample_top_p_with_filter [(1:ℚ)/2, 3/10, 1/5] ((7:ℚ)/10) ((1:ℚ)/10) ((7:ℚ)/10/1024) =
      ((1:ℚ)/2, (0:ℤ)) ∧
    SampleTopPFromProb [(1:ℚ)/2, 3/10, 1/5] ((7:ℚ)/10) ((1:ℚ)/10) = some ((1:ℚ)/2, (0:ℤ)) :=
  ⟨by norm_num [sortDesc, filterScan, List.insertionSort, List.orderedInsert, descRel],
   by norm_num,
   c7_fast_exit [(1:ℚ)/2, 3/10, 1/5] ((7:ℚ)/10) ((1:ℚ)/10) ((7:ℚ)/10/1024)
     ((1:ℚ)/2, (0:ℤ)) [((3:ℚ)/10, (1:ℤ)), ((1:ℚ)/5, (2:ℤ))]
     (by norm_num [sortDesc, filterScan, List.insertionSort, List.orderedInsert, descRel])
     (by norm_num),
   by norm_num [SampleTopPFromProb, one, sample_top_p_with_filter, sampleFromSorted, sortDesc,
     filterScan, List.insertionSort, List.orderedInsert, descRel]⟩

/-- C1: the per-position protocol of BatchVerifyDraftTokens.  With target
probability p = pRow[curToken] and draft probability q: if p >= q the draft
token is committed and recorded and the loop continues; otherwise a uniform r
is drawn and the draft token is accepted iff r < p / (q + eps); on rejection
the row is replaced by the residual max(p_row - q_row, 0) normalized to sum 1
(zero at every index where the draft probability is >= the target
probability), a replacement is sampled from it with the sequence's configured
top_p, and no further draft positions are processed. -/
theorem c1_verify_protocol (cfg : GenerationConfig) (pRow : List ℚ) (curToken : ℕ)
    (qValue : ℚ) (qDist : List ℚ) (rest : List (List ℚ × ℕ × ℚ × List ℚ))
    (rng : List ℚ) (committed accepted : List ℤ)
    (heps : eps ≤ cfg.temperature) :
    (qValue ≤ pRow.getD curToken 0 →
      verifySeq cfg ((pRow, curToken, qValue, qDist) :: rest) rng (committed, accepted) =
        verifySeq cfg rest rng (committed ++ [(curToken : ℤ)], accepted ++ [(curToken : ℤ)])) ∧
    (pRow.getD curToken 0 < qValue →
      rng.headD 0 < pRow.getD curToken 0 / (qValue + eps) →
      verifySeq cfg ((pRow, curToken, qValue, qDist) :: rest) rng (committed, accepted) =
        verifySeq cfg rest rng.tail (committed ++ [(curToken : ℤ)], accepted ++ [(curToken : ℤ)])) ∧
    (pRow.getD curToken 0 < qValue →
      ¬ rng.headD 0 < pRow.getD curToken 0 / (qValue + eps) →
      verifySeq cfg ((pRow, curToken, qValue, qDist) :: rest) rng (committed, accepted) =
        (SampleTopPFromProb (renormRow pRow qDist) cfg.top_p (rng.tail.headD 0)).elim
          none (fun res => some (committed ++ [res.2], accepted ++ [(curToken : ℤ)]))) ∧
    (∀ j, j < pRow.length → pRow.getD j 0 ≤ qDist.getD j 0 →
      (renormRow pRow qDist).getD j 0 = 0) ∧
    ((residualRow pRow qDist).sum ≠ 0 → (renormRow pRow qDist).sum = 1) := by
  have hres : resolvedTopP cfg = cfg.top_p := by
    rw [resolvedTopP, if_neg (not_lt.mpr heps)]
  refine ⟨?_, ?_, ?_, ?_, ?_⟩
  · intro hq
    simp only [verifySeq, if_pos hq]
  · intro hq hr
    simp only [verifySeq, if_neg (not_le.mpr hq), if_pos hr]
  · intro hq hr
    simp only [verifySeq, if_neg (not_le.mpr hq), if_neg hr]
    rw [← hres]
    rcases hS : SampleTopPFromProb (renormRow pRow qDist) (resolvedTopP cfg) (rng.tail.headD 0)
      with _ | res <;> simp [hS]
  · intro j hj hle
    rw [renormRow_getD pRow qDist hj, max_eq_right (sub_nonpos.mpr hle), zero_div]
  · intro hne
    have hsum : (renormRow pRow qDist).sum =
        (residualRow pRow qDist).sum * ((residualRow pRow qDist).sum)⁻¹ := by
      simp only [renormRow, div_eq_mul_inv]
      rw [List.sum_map_mul_right, List.map_id']
    rw [hsum, mul_inv_cancel₀ hne]

/-- C1 witness: a concrete rejected draft position — target row [1/10, 9/10],
draft token 0 with q = 1/2, draw 9/10 rejects, and the protocol equation of
the rejection branch holds with the residual-resampled replacement. -/
theorem c1_witness :
    ((1:ℚ)/10 < 1/2) ∧ (¬ (9:ℚ)/10 < ((1:ℚ)/10) / ((1:ℚ)/2 + eps)) ∧
    verifySeq ⟨1, 1/2⟩ [([(1:ℚ)/10, 9/10], 0, (1:ℚ)/2, [(1:ℚ)/2, 1/2])] [(9:ℚ)/10, 1/3]
        ([], []) =
      (SampleTopPFromProb (renormRow [(1:ℚ)/10, 9/10] [(1:ℚ)/2, 1/2]) ((1:ℚ)/2)
          (List.headD (List.tail [(9:ℚ)/10, 1/3]) 0)).elim
        none (fun res => some (([] : List ℤ) ++ [res.2], ([] : List ℤ) ++ [(0 : ℤ)])) := by
  refine ⟨by norm_num, by norm_num [eps], ?_⟩
  have h := (c1_verify_protocol ⟨1, 1/2⟩ [(1:ℚ)/10, 9/10] 0 ((1:ℚ)/2) [(1:ℚ)/2, 1/2] []
    [(9:ℚ)/10, 1/3] [] [] (by norm_num [eps])).2.2.1
  exact h (by norm_num) (by norm_num [eps])

/-- C5: at a rejected draft position, the resampled replacement token is
committed to the request's persistent state, while the original rejected
draft token id is the one appended to the returned accepted-tokens list. -/
theorem c5_reject_records_draft_token (cfg : GenerationConfig) (pRow : List ℚ)
    (curToken : ℕ) (qValue : ℚ) (qDist : List ℚ)
    (rest : List (List ℚ × ℕ × ℚ × List ℚ)) (rng : List ℚ)
    (committed accepted : List ℤ) (res : ℚ × ℤ)
    (hq : pRow.getD curToken 0 < qValue)
    (hr : ¬ rng.headD 0 < pRow.getD curToken 0 / (qValue + eps))
    (hs : SampleTopPFromProb (renormRow pRow qDist) (resolvedTopP cfg)
      (rng.tail.headD 0) = some res) :
    verifySeq cfg ((pRow, curToken, qValue, qDist) :: rest) rng (committed, accepted) =
      some (committed ++ [res.2], accepted ++ [(curToken : ℤ)]) := by
  simp only [verifySeq, if_neg (not_le.mpr hq), if_neg hr, hs]

/-- C5 witness: the rejection at the concrete position of the C1 witness
commits replacement token 1 but records draft token 0 in the accepted list. -/
theorem c5_witness :
    SampleTopPFromProb (renormRow [(1:ℚ)/10, 9/10] [(1:ℚ)/2, 1/2])
        (resolvedTopP ⟨1, 1/2⟩) (List.headD (List.tail [(9:ℚ)/10, 1/3]) 0) =
      some (1, 1) ∧
    verifySeq ⟨1, 1/2⟩ [([(1:ℚ)/10, 9/10], 0, (1:ℚ)/2, [(1:ℚ)/2, 1/2])] [(9:ℚ)/10, 1/3]
        ([], []) = some (([] : List ℤ) ++ [(1 : ℤ)], ([] : List ℤ) ++ [(0 : ℤ)]) := by
  have hs : SampleTopPFromProb (renormRow [(1:ℚ)/10, 9/10] [(1:ℚ)/2, 1/2])
      (resolvedTopP ⟨1, 1/2⟩) (List.headD (List.tail [(9:ℚ)/10, 1/3]) 0) = some (1, 1) := by
    norm_num [renormRow, residualRow, resolvedTopP, eps, SampleTopPFromProb, one,
      sample_top_p_with_filter, sampleFromSorted, sortDesc, filterScan, List.insertionSort,
      List.orderedInsert, descRel, List.range_succ]
  refine ⟨hs, ?_⟩
  exact c5_reject_records_draft_token ⟨1, 1/2⟩ [(1:ℚ)/10, 9/10] 0 ((1:ℚ)/2)
    [(1:ℚ)/2, 1/2] [] [(9:ℚ)/10, 1/3] [] [] (1, 1) (by norm_num) (by norm_num [eps]) hs

lemma sortDesc_perm (l : List (ℚ × ℤ)) : List.Perm (sortDesc l) l :=
  List.perm_insertionSort descRel l

lemma filterScan_sublist (c : ℚ) : ∀ (l : List ℚ) (i : ℤ) (cs : ℚ),
    List.Sublist (filterScan c l i cs) (enumZ l i) := by
  intro l
  induction l with
  | nil => intro i cs; simp [filterScan, enumZ]
  | cons p rest ih =>
    intro i cs
    simp only [filterScan, enumZ]
    by_cases hp : c ≤ p
    · rw [if_pos hp]
      by_cases hb : 1 - c < cs + p
      · rw [if_pos hb]
        exact List.Sublist.cons₂ _ (List.nil_sublist _)
      · rw [if_neg hb]
        exact List.Sublist.cons₂ _ (ih (i + 1) (cs + p))
    · rw [if_neg hp]
      exact List.Sublist.cons _ (ih (i + 1) cs)

lemma mem_filterScan_ge (c : ℚ) : ∀ (l : List ℚ) (i : ℤ) (cs : ℚ) (x : ℚ × ℤ),
    x ∈ filterScan c l i cs → c ≤ x.1 := by
  intro l
  induction l with
  | nil => intro i cs x hx; simp [filterScan] at hx
  | cons p rest ih =>
    intro i cs x hx
    simp only [filterScan] at hx
    by_cases hp : c ≤ p
    · rw [if_pos hp] at hx
      rcases List.mem_cons.mp hx with rfl | hx'
      · exact hp
      · by_cases hb : 1 - c < cs + p
        · rw [if_pos hb] at hx'
          simp at hx'
        · rw [if_neg hb] at hx'
          exact ih (i + 1) (cs + p) x hx'
    · rw [if_neg hp] at hx
      exact ih (i + 1) cs x hx

lemma mem_enumZ : ∀ (l : List ℚ) (i : ℤ) (x : ℚ × ℤ), x ∈ enumZ l i →
    ∃ k : ℕ, k < l.length ∧ x = (l.getD k 0, i + k) := by
  intro l
  induction l with
  | nil => intro i x hx; simp [enumZ] at hx
  | cons p rest ih =>
    intro i x hx
    simp only [enumZ] at hx
    rcases List.mem_cons.mp hx with rfl | hx'
    · exact ⟨0, by simp, by simp⟩
    · obtain ⟨k, hk, hxe⟩ := ih (i + 1) x hx'
      refine ⟨k + 1, by simpa using hk, ?_⟩
      rw [hxe, List.getD_cons_succ]
      refine congrArg _ ?_
      push_cast
      ring

lemma filterScan_idx_nonneg (c : ℚ) {row : List ℚ} {x : ℚ × ℤ}
    (hx : x ∈ filterScan c row 0 0) : 0 ≤ x.2 := by
  have hmem : x ∈ enumZ row 0 := (filterScan_sublist c row 0 0).subset hx
  obtain ⟨k, _, hxe⟩ := mem_enumZ row 0 x hmem
  rw [hxe]
  simp

lemma computeTopPSum_length (tp : ℚ) : ∀ (l : List (ℚ × ℤ)) (cum tps : ℚ),
    (computeTopPSum tp l cum tps).1.length = l.length := by
  intro l
  induction l with
  | nil => intro cum tps; rfl
  | cons x rest ih =>
    intro cum tps
    rcases x with ⟨p, idx⟩
    simp only [computeTopPSum]
    by_cases hc : cum < tp
    · rw [if_pos hc]
      simpa using ih (cum + p) (tps + p)
    · rw [if_neg hc]

lemma computeTopPSum_idx (tp : ℚ) : ∀ (l : List (ℚ × ℤ)) (cum tps : ℚ) (x : ℚ × ℤ),
    x ∈ (computeTopPSum tp l cum tps).1 → ∃ y ∈ l, x.2 = y.2 := by
  intro l
  induction l with
  | nil => intro cum tps x hx; simp [computeTopPSum] at hx
  | cons z rest ih =>
    intro cum tps x hx
    rcases z with ⟨p, idx⟩
    simp only [computeTopPSum] at hx
    by_cases hc : cum < tp
    · rw [if_pos hc] at hx
      simp only at hx
      rcases List.mem_cons.mp hx with rfl | hx'
      · exact ⟨(p, idx), List.mem_cons_self _ _, rfl⟩
      · obtain ⟨y, hy, hxy⟩ := ih (cum + p) (tps + p) x hx'
        exact ⟨y, List.mem_cons_of_mem _ hy, hxy⟩
    · rw [if_neg hc] at hx
      exact ⟨x, hx, rfl⟩

lemma selectLoop_some_idx (u tps : ℚ) : ∀ (l : List (ℚ × ℤ)) (last : ℚ) (res : ℚ × ℤ),
    selectLoop u tps l last = some res → ∃ y ∈ l, res.2 = y.2 := by
  intro l
  induction l with
  | nil => intro last res h; simp [selectLoop] at h
  | cons x rest ih =>
    intro last res h
    simp only [selectLoop] at h
    by_cases hx : u < x.1 / tps
    · rw [if_pos hx] at h
      obtain rfl := (Option.some.injEq _ _).mp h
      exact ⟨x, List.mem_cons_self _ _, rfl⟩
    · rw [if_neg hx] at h
      obtain ⟨y, hy, hxy⟩ := ih x.1 res h
      exact ⟨y, List.mem_cons_of_mem _ hy, hxy⟩

lemma selectLoop_none (u tps : ℚ) : ∀ (l : List (ℚ × ℤ)) (last : ℚ),
    (∀ x ∈ l, ¬ u < x.1 / tps) → selectLoop u tps l last = none := by
  intro l
  induction l with
  | nil => intro last _; rfl
  | cons x rest ih =>
    intro last h
    simp only [selectLoop, if_neg (h x (List.mem_cons_self _ _))]
    exact ih x.1 (fun y hy => h y (List.mem_cons_of_mem _ hy))

lemma getLastD_mem : ∀ (l : List (ℚ × ℤ)) (d : ℚ × ℤ), l ≠ [] → l.getLastD d ∈ l := by
  intro l
  induction l with
  | nil => intro d h; exact absurd rfl h
  | cons x rest ih =>
    intro d _
    cases rest with
    | nil => simp
    | cons y t =>
      rw [List.getLastD_cons]
      exact List.mem_cons_of_mem x (ih x (by simp))

lemma sample_filter_fast (row : List ℚ) (top_p u cuttoff : ℚ) (d0 : ℚ × ℤ)
    (drest : List (ℚ × ℤ))
    (hsort : sortDesc (filterScan cuttoff row 0 0) = d0 :: drest)
    (hfast : u < d0.1 / top_p) :
    sample_top_p_with_filter row top_p u cuttoff = (d0.1, d0.2) := by
  unfold sample_top_p_with_filter
  rw [hsort]
  simp [sampleFromSorted, hfast]

lemma sample_filter_sel (row : List ℚ) (top_p u cuttoff : ℚ) (d0 : ℚ × ℤ)
    (drest : List (ℚ × ℤ))
    (hsort : sortDesc (filterScan cuttoff row 0 0) = d0 :: drest)
    (hnofast : ¬ u < d0.1 / top_p)
    (hnosent : ¬ ((computeTopPSum top_p (d0 :: drest) 0 0).2.1 < top_p ∧ cuttoff ≠ 0)) :
    sample_top_p_with_filter row top_p u cuttoff =
      (match selectLoop u (computeTopPSum top_p (d0 :: drest) 0 0).2.2
          (computeTopPSum top_p (d0 :: drest) 0 0).1 0 with
       | some res => res
       | none => (0, ((computeTopPSum top_p (d0 :: drest) 0 0).1.getLastD (0, -1)).2)) := by
  unfold sample_top_p_with_filter
  rw [hsort]
  simp only [sampleFromSorted, if_neg hnofast, if_neg hnosent]

/-- C2: for a nucleus-branch top_p, when the filtered pass at cutoff
top_p/1024 returns the no-selection sentinel, the whole filter-then-sample
procedure is retried exactly once at cutoff 0, and a failure of that cutoff-0
pass is the fatal contract violation (modelled `none`), never recoverable;
the sentinel only arises from an empty candidate set or from the collected
cumulative sum never reaching top_p at a nonzero cutoff; and within a pass,
when no candidate's normalized cumulative position exceeds the uniform draw,
the last sorted candidate is returned. -/
theorem c2_sentinel_retry (row : List ℚ) (top_p u : ℚ) (h0 : 0 < top_p)
    (h1 : top_p < one) :
    ((sample_top_p_with_filter row top_p u (top_p / 1024)).2 < 0 →
      SampleTopPFromProb row top_p u =
        (if 0 ≤ (sample_top_p_with_filter row top_p u 0).2
         then some (sample_top_p_with_filter row top_p u 0) else none)) ∧
    ((sample_top_p_with_filter row top_p u (top_p / 1024)).2 < 0 →
      (sample_top_p_with_filter row top_p u 0).2 < 0 →
      SampleTopPFromProb row top_p u = none) ∧
    ((sample_top_p_with_filter row top_p u (top_p / 1024)).2 < 0 →
      filterScan (top_p / 1024) row 0 0 = [] ∨
        (computeTopPSum top_p (sortDesc (filterScan (top_p / 1024) row 0 0)) 0 0).2.1 < top_p) ∧
    (∀ cuttoff d0 drest,
      sortDesc (filterScan cuttoff row 0 0) = d0 :: drest →
      ¬ u < d0.1 / top_p →
      ¬ ((computeTopPSum top_p (d0 :: drest) 0 0).2.1 < top_p ∧ cuttoff ≠ 0) →
      (∀ x ∈ (computeTopPSum top_p (d0 :: drest) 0 0).1,
        ¬ u < x.1 / (computeTopPSum top_p (d0 :: drest) 0 0).2.2) →
      sample_top_p_with_filter row top_p u cuttoff =
        (0, ((computeTopPSum top_p (d0 :: drest) 0 0).1.getLastD (0, -1)).2)) := by
  have hne0 : top_p ≠ 0 := ne_of_gt h0
  have hlt1 : ¬ one ≤ top_p := not_le.mpr h1
  refine ⟨?_, ?_, ?_, ?_⟩
  · intro h
    unfold SampleTopPFromProb
    rw [if_neg hne0, if_neg hlt1]
    simp only [if_neg (not_le.mpr h)]
  · intro h h2
    unfold SampleTopPFromProb
    rw [if_neg hne0, if_neg hlt1]
    simp only [if_neg (not_le.mpr h), if_neg (not_le.mpr h2)]
  · intro hneg
    by_contra hcon
    push_neg at hcon
    obtain ⟨hne, hcum⟩ := hcon
    have hperm := sortDesc_perm (filterScan (top_p / 1024) row 0 0)
    rcases hsd : sortDesc (filterScan (top_p / 1024) row 0 0) with _ | ⟨d0, drest⟩
    · rw [hsd] at hperm
      exact hne hperm.symm.eq_nil
    · rw [hsd] at hperm hcum
      by_cases hfast : u < d0.1 / top_p
      · rw [sample_filter_fast row top_p u (top_p / 1024) d0 drest hsd hfast] at hneg
        have hd0 : d0 ∈ filterScan (top_p / 1024) row 0 0 :=
          hperm.subset (List.mem_cons_self _ _)
        exact absurd (filterScan_idx_nonneg _ hd0) (not_le.mpr hneg)
      · have hnosent : ¬ ((computeTopPSum top_p (d0 :: drest) 0 0).2.1 < top_p ∧
            (top_p / 1024) ≠ 0) := fun hc => absurd hc.1 (not_lt.mpr hcum)
        rw [sample_filter_sel row top_p u (top_p / 1024) d0 drest hsd hfast hnosent] at hneg
        rcases hsel : selectLoop u (computeTopPSum top_p (d0 :: drest) 0 0).2.2
            (computeTopPSum top_p (d0 :: drest) 0 0).1 0 with _ | res
        · rw [hsel] at hneg
          simp only at hneg
          have hlen : (computeTopPSum top_p (d0 :: drest) 0 0).1 ≠ [] := by
            have := computeTopPSum_length top_p (d0 :: drest) 0 0
            intro hemp
            rw [hemp] at this
            simp at this
          have hmem := getLastD_mem _ (0, -1) hlen
          obtain ⟨y, hy, hxy⟩ := computeTopPSum_idx top_p (d0 :: drest) 0 0 _ hmem
          have hy' : y ∈ filterScan (top_p / 1024) row 0 0 := hperm.subset hy
          have := filterScan_idx_nonneg _ hy'
          rw [← hxy] at this
          exact absurd hneg (not_lt.mpr this)
        · rw [hsel] at hneg
          simp only at hneg
          obtain ⟨y, hy, hxy⟩ := selectLoop_some_idx u _ _ 0 res hsel
          obtain ⟨z, hz, hyz⟩ := computeTopPSum_idx top_p (d0 :: drest) 0 0 y hy
          have hz' : z ∈ filterScan (top_p / 1024) row 0 0 := hperm.subset hz
          have := filterScan_idx_nonneg _ hz'
          rw [← hyz, ← hxy] at this
          exact absurd hneg (not_lt.mpr this)
  · intro cuttoff d0 drest hsd hnofast hnosent hall
    rw [sample_filter_sel row top_p u cuttoff d0 drest hsd hnofast hnosent,
      selectLoop_none u _ _ 0 hall]

/-- C2 witness: on the row [2045/2048, 3/4096, 3/4096] with top_p = 1023/1024
and draw 2045/2046, the filtered pass returns the sentinel and the procedure
equals the cutoff-0 retry (which succeeds). -/
theorem c2_witness :
    (sample_top_p_with_filter [(2045:ℚ)/2048, 3/4096, 3/4096] ((1023:ℚ)/1024)
      ((2045:ℚ)/2046) (((1023:ℚ)/1024) / 1024)).2 < 0 ∧
    SampleTopPFromProb [(2045:ℚ)/2048, 3/4096, 3/4096] ((1023:ℚ)/1024) ((2045:ℚ)/2046) =
      (if 0 ≤ (sample_top_p_with_filter [(2045:ℚ)/2048, 3/4096, 3/4096] ((1023:ℚ)/1024)
          ((2045:ℚ)/2046) 0).2
       then some (sample_top_p_with_filter [(2045:ℚ)/2048, 3/4096, 3/4096] ((1023:ℚ)/1024)
          ((2045:ℚ)/2046) 0) else none) := by
  have hs : (sample_top_p_with_filter [(2045:ℚ)/2048, 3/4096, 3/4096] ((1023:ℚ)/1024)
      ((2045:ℚ)/2046) (((1023:ℚ)/1024) / 1024)).2 < 0 := by
    norm_num [sample_top_p_with_filter, sampleFromSorted, sortDesc, filterScan,
      List.insertionSort, List.orderedInsert, descRel, computeTopPSum, selectLoop]
  exact ⟨hs, (c2_sentinel_retry [(2045:ℚ)/2048, 3/4096, 3/4096] ((1023:ℚ)/1024)
    ((2045:ℚ)/2046) (by norm_num) (by norm_num [one])).1 hs⟩

lemma runSchedule_getElem? (rows : List (List ℚ)) (cfgs : List GenerationConfig)
    (draws : List ℚ) (sched : List ℕ) :
    ∀ (out : List (Option (ℚ × ℤ))) (j : ℕ),
      (sched.foldl (fun out i => out.set i (sampleRow rows cfgs draws i)) out)[j]? =
        if j ∈ sched ∧ j < out.length then some (sampleRow rows cfgs draws j) else out[j]? := by
  induction sched with
  | nil => intro out j; simp
  | cons i rest ih =>
    intro out j
    simp only [List.foldl_cons]
    rw [ih, List.length_set]
    by_cases hjr : j ∈ rest ∧ j < out.length
    · rw [if_pos hjr, if_pos ⟨List.mem_cons_of_mem _ hjr.1, hjr.2⟩]
    · rw [if_neg hjr, List.getElem?_set]
      by_cases hij : i = j
      · subst hij
        by_cases hi : i < out.length
        · rw [if_pos rfl, if_pos hi, if_pos ⟨List.mem_cons_self _ _, hi⟩]
        · rw [if_pos rfl, if_neg hi, if_neg (fun hc => hi hc.2)]
          exact (List.getElem?_eq_none (by omega)).symm
      · rw [if_neg hij]
        by_cases hjm : j ∈ i :: rest ∧ j < out.length
        · rcases List.mem_cons.mp hjm.1 with rfl | hjr'
          · exact absurd rfl hij
          · exact absurd ⟨hjr', hjm.2⟩ hjr
        · rw [if_neg hjm]

lemma runSchedule_eq_map (rows : List (List ℚ)) (cfgs : List GenerationConfig)
    (draws : List ℚ) (sched : List ℕ)
    (h : List.Perm sched (List.range rows.length)) :
    runSchedule rows cfgs draws rows.length sched =
      (List.range rows.length).map (fun i => sampleRow rows cfgs draws i) := by
  apply List.ext_getElem?
  intro j
  unfold runSchedule
  rw [runSchedule_getElem?, List.length_replicate]
  by_cases hj : j < rows.length
  · have hmem : j ∈ sched := h.mem_iff.mpr (List.mem_range.mpr hj)
    rw [if_pos ⟨hmem, hj⟩, List.getElem?_map, List.getElem?_range hj]
    rfl
  · rw [if_neg (fun hc => hj hc.2)]
    rw [List.getElem?_eq_none (by simpa using not_lt.mp hj),
      List.getElem?_eq_none (by simpa using not_lt.mp hj)]

/-- C8: BatchSampleTokens is deterministic — for identical rows, identical
resolved per-row configurations and identical per-row uniform draws, any two
worker schedules that each process every row produce identical outputs, equal
to the sequential row-by-row result. -/
theorem c8_deterministic (rows : List (List ℚ)) (cfgs : List GenerationConfig)
    (draws : List ℚ) (sched₁ sched₂ : List ℕ)
    (h₁ : List.Perm sched₁ (List.range rows.length))
    (h₂ : List.Perm sched₂ (List.range rows.length)) :
    runSchedule rows cfgs draws rows.length sched₁ =
      runSchedule rows cfgs draws rows.length sched₂ ∧
    BatchSampleTokens Device.accel rows cfgs draws =
      some (runSchedule rows cfgs draws rows.length sched₁) := by
  have e₁ := runSchedule_eq_map rows cfgs draws sched₁ h₁
  have e₂ := runSchedule_eq_map rows cfgs draws sched₂ h₂
  refine ⟨e₁.trans e₂.symm, ?_⟩
  rw [e₁, BatchSampleTokens, if_neg (by decide)]

/-- C8 witness: a two-row batch processed in the two possible schedule orders
gives the same output. -/
theorem c8_witness :
    List.Perm [1, 0] (List.range (List.length [[(1:ℚ)], [(1:ℚ)]])) ∧
    List.Perm [0, 1] (List.range (List.length [[(1:ℚ)], [(1:ℚ)]])) ∧
    runSchedule [[(1:ℚ)], [(1:ℚ)]] [⟨1, (1:ℚ)/2⟩, ⟨1, (1:ℚ)/2⟩] [0, 0]
        (List.length [[(1:ℚ)], [(1:ℚ)]]) [1, 0] =
      runSchedule [[(1:ℚ)], [(1:ℚ)]] [⟨1, (1:ℚ)/2⟩, ⟨1, (1:ℚ)/2⟩] [0, 0]
        (List.length [[(1:ℚ)], [(1:ℚ)]]) [0, 1] :=
  ⟨by decide, by decide,
   (c8_deterministic [[(1:ℚ)], [(1:ℚ)]] [⟨1, (1:ℚ)/2⟩, ⟨1, (1:ℚ)/2⟩] [0, 0]
     [1, 0] [0, 1] (by decide) (by decide)).1⟩

lemma le_grow (s n : ℕ) : s ≤ grow s n := by
  rw [grow]
  split
  · exact le_trans (by omega) (le_grow (2 * s) n)
  · exact Nat.le_refl s
termination_by n - s
decreasing_by omega

lemma grow_ge (s n : ℕ) (hs : 0 < s) : n ≤ grow s n := by
  rw [grow]
  split
  · next h => exact grow_ge (2 * s) n (by omega)
  · next h => push_neg at h; omega
termination_by n - s
decreasing_by omega

lemma grow_pow (k n : ℕ) : ∃ j, k ≤ j ∧ grow (32 * 2 ^ k) n = 32 * 2 ^ j := by
  rw [grow]
  split
  · next h =>
    have h2 : 2 * (32 * 2 ^ k) = 32 * 2 ^ (k + 1) := by ring
    rw [h2]
    obtain ⟨j, hj, hgrow⟩ := grow_pow (k + 1) n
    exact ⟨j, by omega, hgrow⟩
  · exact ⟨k, Nat.le_refl k, rfl⟩
termination_by n - 32 * 2 ^ k
decreasing_by
  have := Nat.pow_lt_pow_succ (by norm_num : (1:ℕ) < 2) (n := k)
  omega

lemma grow_of_le (s n : ℕ) (h : n ≤ s) : grow s n = s := by
  rw [grow]
  exact dif_neg (by omega)

lemma capacity_mono {j k : ℕ} (h : j ≤ k) : 32 * 2 ^ j ≤ 32 * 2 ^ k := by
  gcongr
  norm_num

lemma runCalls_append (vocab : ℕ) (l₁ : List ℕ) : ∀ (l₂ : List ℕ) (cache : Option (ℕ × ℕ)),
    runCalls vocab (l₁ ++ l₂) cache = runCalls vocab l₂ (runCalls vocab l₁ cache) := by
  induction l₁ with
  | nil => intro l₂ cache; rfl
  | cons n rest ih =>
    intro l₂ cache
    simp only [List.cons_append, runCalls]
    exact ih l₂ _

lemma copyStep (vocab cap n : ℕ) :
    CopyProbsToCPU Device.accel (some (cap, vocab)) n vocab = some (grow cap n, vocab) := by
  unfold CopyProbsToCPU
  rw [if_neg (by decide)]
  show (if vocab ≠ vocab then none else some (grow cap n, vocab)) = _
  rw [if_neg (by simp)]

lemma runCalls_inv (vocab : ℕ) (calls : List ℕ) : ∀ (k : ℕ),
    ∃ j, k ≤ j ∧ runCalls vocab calls (some (32 * 2 ^ k, vocab)) = some (32 * 2 ^ j, vocab) ∧
      ∀ c ∈ calls, c ≤ 32 * 2 ^ j := by
  induction calls with
  | nil => intro k; exact ⟨k, Nat.le_refl k, rfl, by simp⟩
  | cons n rest ih =>
    intro k
    obtain ⟨j₁, hj₁, hg⟩ := grow_pow k n
    have hstep : CopyProbsToCPU Device.accel (some (32 * 2 ^ k, vocab)) n vocab =
        some (32 * 2 ^ j₁, vocab) := by rw [copyStep, hg]
    obtain ⟨j, hj, hrun, hall⟩ := ih j₁
    refine ⟨j, le_trans hj₁ hj, ?_, ?_⟩
    · simp only [runCalls]
      rw [hstep]
      exact hrun
    · intro c hc
      rcases List.mem_cons.mp hc with rfl | hc'
      · calc c ≤ grow (32 * 2 ^ k) c := grow_ge _ c (by positivity)
          _ = 32 * 2 ^ j₁ := hg
          _ ≤ 32 * 2 ^ j := capacity_mono hj
      · exact hall c hc'

/-- C3 counterexample: with a cached 32-row buffer at vocab width 5, a call
at vocab width 7 is a fatal ICHECK failure (modelled `none`), not an
invalidate-and-rebuild at the new width. -/
theorem c3_counterexample :
    CopyProbsToCPU Device.accel (some (32, 5)) 10 7 = none := by decide

/-- C3 (amended): across any sequence of calls at a constant vocab width the
cached capacity is always 32 times a power of two, at least the first
requested row count and every later one, it never shrinks along the call
sequence, and the first call with at most 32 rows allocates exactly 32 rows;
a vocab-width change, however, is a fatal ICHECK failure (`none`), never a
rebuild. -/
theorem c3_capacity_doubling (vocab m : ℕ) (calls : List ℕ) :
    ∃ k : ℕ, runCalls vocab calls (CopyProbsToCPU Device.accel none m vocab) =
        some (32 * 2 ^ k, vocab) ∧
      m ≤ 32 * 2 ^ k ∧ (∀ c ∈ calls, c ≤ 32 * 2 ^ k) ∧
      (m ≤ 32 → CopyProbsToCPU Device.accel none m vocab = some (32, vocab)) ∧
      (∀ pre suf, calls = pre ++ suf → ∃ j : ℕ,
        runCalls vocab pre (CopyProbsToCPU Device.accel none m vocab) =
          some (32 * 2 ^ j, vocab) ∧ 32 * 2 ^ j ≤ 32 * 2 ^ k) ∧
      (∀ cap w c, w ≠ vocab →
        CopyProbsToCPU Device.accel (some (cap, w)) c vocab = none) := by
  have h32 : (32 : ℕ) * 2 ^ 0 = 32 := by norm_num
  obtain ⟨k₀, _, hg0⟩ := grow_pow 0 m
  rw [h32] at hg0
  have hfirst : CopyProbsToCPU Device.accel none m vocab = some (32 * 2 ^ k₀, vocab) := by
    unfold CopyProbsToCPU
    rw [if_neg (by decide)]
    show some (grow 32 m, vocab) = _
    rw [hg0]
  obtain ⟨k, hk₀k, hrun, hall⟩ := runCalls_inv vocab calls k₀
  have h1 : runCalls vocab calls (CopyProbsToCPU Device.accel none m vocab) =
      some (32 * 2 ^ k, vocab) := by rw [hfirst]; exact hrun
  refine ⟨k, h1, ?_, hall, ?_, ?_, ?_⟩
  · calc m ≤ grow 32 m := grow_ge 32 m (by norm_num)
      _ = 32 * 2 ^ k₀ := hg0
      _ ≤ 32 * 2 ^ k := capacity_mono hk₀k
  · intro hm32
    unfold CopyProbsToCPU
    rw [if_neg (by decide)]
    show some (grow 32 m, vocab) = _
    rw [grow_of_le 32 m hm32]
  · intro pre suf hps
    obtain ⟨j, _, hpre, _⟩ := runCalls_inv vocab pre k₀
    obtain ⟨j₂, hjj₂, hsuf, _⟩ := runCalls_inv vocab suf j
    have hpre' : runCalls vocab pre (CopyProbsToCPU Device.accel none m vocab) =
        some (32 * 2 ^ j, vocab) := by rw [hfirst]; exact hpre
    refine ⟨j, hpre', ?_⟩
    have hwhole : runCalls vocab calls (CopyProbsToCPU Device.accel none m vocab) =
        some (32 * 2 ^ j₂, vocab) := by
      rw [hps, runCalls_append, hpre', hsuf]
    have h2 := h1.symm.trans hwhole
    have heq : (32 * 2 ^ k : ℕ) = 32 * 2 ^ j₂ := by
      simpa using congrArg (fun o => (o.getD (0, 0)).1) h2
    rw [heq]
    exact capacity_mono hjj₂
  · intro cap w c hw
    unfold CopyProbsToCPU
    rw [if_neg (by decide)]
    show (if w ≠ vocab then none else some (grow cap c, vocab)) = none
    rw [if_pos hw]

/-- C3 witness: the specification's example — 10 rows, then 40, then 20, at a
constant vocab width 5 — where the capacity grows 32 → 64 and never shrinks. -/
theorem c3_witness :
    (∃ k : ℕ, runCalls 5 [40, 20] (CopyProbsToCPU Device.accel none 10 5) =
        some (32 * 2 ^ k, 5) ∧
      10 ≤ 32 * 2 ^ k ∧ (∀ c ∈ [40, 20], c ≤ 32 * 2 ^ k) ∧
      (10 ≤ 32 → CopyProbsToCPU Device.accel none 10 5 = some (32, 5)) ∧
      (∀ pre suf, [40, 20] = pre ++ suf → ∃ j : ℕ,
        runCalls 5 pre (CopyProbsToCPU Device.accel none 10 5) =
          some (32 * 2 ^ j, 5) ∧ 32 * 2 ^ j ≤ 32 * 2 ^ k) ∧
      (∀ cap w c, w ≠ 5 → CopyProbsToCPU Device.accel (some (cap, w)) c 5 = none)) :=
  c3_capacity_doubling 5 10 [40, 20]

/-- C9 counterexample: a host-resident (CPU) input tensor given to either
batch entry point fails CopyProbsToCPU's `ICHECK(device != kDLCPU)` and is
fatal (`none`), not handled. -/
theorem c9_counterexample :
    BatchSampleTokens Device.cpu [[(1:ℚ)]] [⟨1, (1:ℚ)/2⟩] [0] = none ∧
    BatchVerifyDraftTokens Device.cpu [(⟨1, (1:ℚ)/2⟩, [], [])] = none :=
  ⟨rfl, rfl⟩

/-- C9 (amended): the batch entry points require an accelerator-resident
input: a host-resident input is rejected by a fatal ICHECK, while an
accelerator-resident input is copied to the host and processed. -/
theorem c9_device_contract (rows : List (List ℚ)) (cfgs : List GenerationConfig)
    (draws : List ℚ)
    (seqs : List (GenerationConfig × List (List ℚ × ℕ × ℚ × List ℚ) × List ℚ)) :
    BatchSampleTokens Device.cpu rows cfgs draws = none ∧
    BatchVerifyDraftTokens Device.cpu seqs = none ∧
    (∀ dev, dev ≠ Device.cpu →
      BatchSampleTokens dev rows cfgs draws =
        some ((List.range rows.length).map (fun i => sampleRow rows cfgs draws i)) ∧
      BatchVerifyDraftTokens dev seqs =
        some (seqs.map (fun s => verifySeq s.1 s.2.1 s.2.2 ([], [])))) := by
  refine ⟨rfl, rfl, ?_⟩
  intro dev hdev
  constructor
  · unfold BatchSampleTokens
    rw [if_neg hdev]
  · unfold BatchVerifyDraftTokens
    rw [if_neg hdev]

/-- C9 witness: the accelerator-resident case is accepted. -/
theorem c9_witness :
    (Device.accel ≠ Device.cpu) ∧
    BatchSampleTokens Device.accel [] [] [] = some [] ∧
    BatchVerifyDraftTokens Device.accel [] = some [] := by
  have h := (c9_device_contract [] [] [] []).2.2 Device.accel (by decide)
  exact ⟨by decide, by simpa using h.1, by simpa using h.2⟩

lemma mem_enumZ_val (l : List ℚ) (i : ℤ) (x : ℚ × ℤ) (hx : x ∈ enumZ l i) : x.1 ∈ l := by
  obtain ⟨k, hk, hxe⟩ := mem_enumZ l i x hx
  rw [hxe]
  exact getD_mem_of_lt hk

lemma filterScan_uncollected (c : ℚ) (l : List ℚ) : ∀ (i : ℤ) (cs : ℚ) (x : ℚ × ℤ),
    (∀ y ∈ l, 0 ≤ y) → x ∈ enumZ l i → x ∉ filterScan c l i cs →
    x.1 < c ∨ (x.1 + ((filterScan c l i cs).map Prod.fst).sum ≤ l.sum ∧
      1 - c < cs + ((filterScan c l i cs).map Prod.fst).sum) := by
  induction l with
  | nil => intro i cs x _ hx _; simp [enumZ] at hx
  | cons p rest ih =>
    intro i cs x hnn hx hnotin
    have hp0 : (0:ℚ) ≤ p := hnn p (List.mem_cons_self _ _)
    have hnnr : ∀ y ∈ rest, (0:ℚ) ≤ y := fun y hy => hnn y (List.mem_cons_of_mem _ hy)
    simp only [enumZ] at hx
    by_cases hp : c ≤ p
    · rcases List.mem_cons.mp hx with rfl | hx'
      · exfalso
        apply hnotin
        simp only [filterScan, if_pos hp]
        exact List.mem_cons_self _ _
      · by_cases hb : 1 - c < cs + p
        · right
          have hF : filterScan c (p :: rest) i cs = [(p, i)] := by
            simp only [filterScan, if_pos hp, if_pos hb]
          rw [hF]
          have hx1 : x.1 ≤ rest.sum :=
            List.single_le_sum hnnr x.1 (mem_enumZ_val rest (i + 1) x hx')
          simp only [List.map_cons, List.map_nil, List.sum_cons, List.sum_nil]
          constructor
          · linarith
          · linarith
        · have hF : filterScan c (p :: rest) i cs =
              (p, i) :: filterScan c rest (i + 1) (cs + p) := by
            simp only [filterScan, if_pos hp, if_neg hb]
          have hnotin' : x ∉ filterScan c rest (i + 1) (cs + p) := by
            intro hc'
            exact hnotin (by rw [hF]; exact List.mem_cons_of_mem _ hc')
          rcases ih (i + 1) (cs + p) x hnnr hx' hnotin' with h | ⟨h1, h2⟩
          · exact Or.inl h
          · right
            rw [hF]
            simp only [List.map_cons, List.sum_cons]
            constructor
            · linarith
            · linarith
    · have hF : filterScan c (p :: rest) i cs = filterScan c rest (i + 1) cs := by
        simp only [filterScan, if_neg hp]
      rcases List.mem_cons.mp hx with rfl | hx'
      · exact Or.inl (not_le.mp hp)
      · rw [hF] at hnotin ⊢
        rcases ih (i + 1) cs x hnnr hx' hnotin with h | ⟨h1, h2⟩
        · exact Or.inl h
        · right
          refine ⟨?_, h2⟩
          rw [List.sum_cons]
          linarith

lemma uncollected_lt_cutoff (c : ℚ) (row : List ℚ) (hnn : ∀ y ∈ row, 0 ≤ y)
    (hsum : row.sum = 1) {x : ℚ × ℤ} (hx : x ∈ enumZ row 0)
    (hnotin : x ∉ filterScan c row 0 0) : x.1 < c := by
  rcases filterScan_uncollected c row 0 0 x hnn hx hnotin with h | ⟨h1, h2⟩
  · exact h
  · rw [hsum] at h1
    linarith

lemma sortDesc_fst_nonneg (row : List ℚ) (hnn : ∀ y ∈ row, 0 ≤ y) :
    ∀ y ∈ sortDesc (enumZ row 0), 0 ≤ y.1 := by
  intro y hy
  exact hnn y.1 (mem_enumZ_val row 0 y ((sortDesc_perm _).subset hy))

lemma multiset_sum_fst_mono {m n : Multiset (ℚ × ℤ)} (h : m ≤ n)
    (hnn : ∀ y ∈ n, 0 ≤ y.1) :
    (m.map Prod.fst).sum ≤ (n.map Prod.fst).sum := by
  obtain ⟨d, rfl⟩ := Multiset.le_iff_exists_add.mp h
  rw [Multiset.map_add, Multiset.sum_add]
  have hd : 0 ≤ (d.map Prod.fst).sum := by
    apply Multiset.sum_nonneg
    intro a ha
    obtain ⟨y, hy, rfl⟩ := Multiset.mem_map.mp ha
    exact hnn y (Multiset.mem_add.mpr (Or.inr hy))
  linarith

lemma sorted_take_bound (row : List ℚ) (hnn : ∀ y ∈ row, 0 ≤ y) (c : ℚ)
    {k : ℕ} (hk : k < (sortDesc (enumZ row 0)).length)
    (htc : ((sortDesc (enumZ row 0)).getD k (0, -1)).1 < c) :
    ((filterScan c row 0 0).map Prod.fst).sum ≤
      (((sortDesc (enumZ row 0)).take k).map Prod.fst).sum := by
  set s := sortDesc (enumZ row 0) with hs
  set t := s.getD k (0, -1) with htdef
  have hsorted : List.Sorted descRel s := List.sorted_insertionSort descRel (enumZ row 0)
  have htk : t = s.get ⟨k, hk⟩ := by
    rw [htdef, List.getD_eq_getElem?_getD, List.getElem?_eq_getElem hk]
    rfl
  have hdrop : ∀ y ∈ s.drop k, y.1 ≤ t.1 := by
    intro y hy
    rw [List.drop_eq_getElem_cons hk] at hy
    rcases List.mem_cons.mp hy with rfl | hy'
    · rw [htk]
      exact le_refl _
    · have htin : t ∈ s.take (k + 1) := by
        rw [List.take_succ, List.getElem?_eq_getElem hk]
        refine List.mem_append_right _ ?_
        rw [htk]
        exact List.mem_singleton_self _
      exact hsorted.rel_of_mem_take_of_mem_drop htin hy'
  have hsub : (filterScan c row 0 0 : Multiset (ℚ × ℤ)) ≤
      Multiset.filter (fun y => c ≤ y.1) (s : Multiset (ℚ × ℤ)) := by
    rw [Multiset.le_filter]
    constructor
    · rw [show (s : Multiset (ℚ × ℤ)) = (enumZ row 0 : Multiset (ℚ × ℤ)) from
        Multiset.coe_eq_coe.mpr (sortDesc_perm _)]
      exact Multiset.coe_le.mpr (filterScan_sublist c row 0 0).subperm
    · intro y hy
      exact mem_filterScan_ge c row 0 0 y (Multiset.mem_coe.mp hy)
  have hsplit : (s.take k : Multiset (ℚ × ℤ)) + (s.drop k : Multiset (ℚ × ℤ)) =
      (s : Multiset (ℚ × ℤ)) := by
    rw [Multiset.coe_add, List.take_append_drop]
  have hfilterdrop : Multiset.filter (fun y => c ≤ y.1) (s.drop k : Multiset (ℚ × ℤ)) = 0 := by
    rw [Multiset.filter_eq_nil]
    intro y hy
    exact not_le.mpr (lt_of_le_of_lt (hdrop y (Multiset.mem_coe.mp hy)) htc)
  have hchain : (filterScan c row 0 0 : Multiset (ℚ × ℤ)) ≤ (s.take k : Multiset (ℚ × ℤ)) := by
    calc (filterScan c row 0 0 : Multiset (ℚ × ℤ))
        ≤ Multiset.filter (fun y => c ≤ y.1) (s : Multiset (ℚ × ℤ)) := hsub
      _ = Multiset.filter (fun y => c ≤ y.1) ((s.take k : Multiset (ℚ × ℤ)) +
            (s.drop k : Multiset (ℚ × ℤ))) := by rw [hsplit]
      _ = Multiset.filter (fun y => c ≤ y.1) (s.take k : Multiset (ℚ × ℤ)) := by
            rw [Multiset.filter_add, hfilterdrop, add_zero]
      _ ≤ (s.take k : Multiset (ℚ × ℤ)) := Multiset.filter_le _ _
  have hmono := multiset_sum_fst_mono hchain (by
    intro y hy
    exact sortDesc_fst_nonneg row hnn y (List.mem_of_mem_take (Multiset.mem_coe.mp hy)))
  rwa [Multiset.map_coe, Multiset.map_coe, Multiset.sum_coe, Multiset.sum_coe] at hmono

/-- C4 counterexample: on the normalized row [2045/2048, 3/4096, 3/4096] with
top_p = 1023/1024, the second token in descending-sorted order has cumulative
probability before it below top_p (it belongs to the top-p set), yet the
filter pass at cutoff top_p/1024 does not collect it — the claim fails as an
unconditional statement about the cutoff pass. -/
theorem c4_counterexample :
    (∀ x ∈ [(2045:ℚ)/2048, 3/4096, 3/4096], 0 ≤ x) ∧
    List.sum [(2045:ℚ)/2048, 3/4096, 3/4096] = 1 ∧
    ((0:ℚ) < 1023/1024 ∧ (1023:ℚ)/1024 < 1) ∧
    (1 < (sortDesc (enumZ [(2045:ℚ)/2048, 3/4096, 3/4096] 0)).length) ∧
    (((sortDesc (enumZ [(2045:ℚ)/2048, 3/4096, 3/4096] 0)).take 1).map Prod.fst).sum <
      (1023:ℚ)/1024 ∧
    (sortDesc (enumZ [(2045:ℚ)/2048, 3/4096, 3/4096] 0)).getD 1 (0, -1) ∉
      filterScan (((1023:ℚ)/1024) / 1024) [(2045:ℚ)/2048, 3/4096, 3/4096] 0 0 := by
  norm_num [sortDesc, enumZ, List.insertionSort, List.orderedInsert, descRel, filterScan]

/-- C4 (amended): the filter pass with cutoff c = top_p/1024 collects only
scanned entries with probability >= c (a subsequence of the row scan, so the
short-circuit skips only later entries), and — provided the collected
candidates' total probability mass reaches top_p — every token whose
descending-sorted cumulative probability is below top_p is among the
collected candidates. -/
theorem c4_filter_completeness (row : List ℚ) (top_p : ℚ) (h0 : 0 < top_p)
    (h1 : top_p < 1) (hnn : ∀ x ∈ row, 0 ≤ x) (hsum : row.sum = 1)
    (hS : top_p ≤ ((filterScan (top_p / 1024) row 0 0).map Prod.fst).sum) :
    List.Sublist (filterScan (top_p / 1024) row 0 0) (enumZ row 0) ∧
    (∀ x ∈ filterScan (top_p / 1024) row 0 0, top_p / 1024 ≤ x.1) ∧
    (∀ k, k < (sortDesc (enumZ row 0)).length →
      (((sortDesc (enumZ row 0)).take k).map Prod.fst).sum < top_p →
      (sortDesc (enumZ row 0)).getD k (0, -1) ∈ filterScan (top_p / 1024) row 0 0) := by
  refine ⟨filterScan_sublist _ _ _ _, fun x hx => mem_filterScan_ge _ _ _ _ x hx, ?_⟩
  intro k hk hcum
  by_contra hnotin
  have hts : (sortDesc (enumZ row 0)).getD k (0, -1) ∈ sortDesc (enumZ row 0) :=
    getD_mem_of_lt hk
  have htenum : (sortDesc (enumZ row 0)).getD k (0, -1) ∈ enumZ row 0 :=
    (sortDesc_perm _).subset hts
  have htc : ((sortDesc (enumZ row 0)).getD k (0, -1)).1 < top_p / 1024 :=
    uncollected_lt_cutoff (top_p / 1024) row hnn hsum htenum hnotin
  have hle := sorted_take_bound row hnn (top_p / 1024) hk htc
  linarith

/-- C4 witness: on the row [1/2, 3/10, 1/5] with top_p = 7/10 the collected
mass reaches top_p and the completeness conclusions hold. -/
theorem c4_witness :
    ((7:ℚ)/10 ≤ ((filterScan (((7:ℚ)/10) / 1024) [(1:ℚ)/2, 3/10, 1/5] 0 0).map Prod.fst).sum) ∧
    (List.Sublist (filterScan (((7:ℚ)/10) / 1024) [(1:ℚ)/2, 3/10, 1/5] 0 0)
      (enumZ [(1:ℚ)/2, 3/10, 1/5] 0) ∧
    (∀ x ∈ filterScan (((7:ℚ)/10) / 1024) [(1:ℚ)/2, 3/10, 1/5] 0 0, ((7:ℚ)/10) / 1024 ≤ x.1) ∧
    (∀ k, k < (sortDesc (enumZ [(1:ℚ)/2, 3/10, 1/5] 0)).length →
      (((sortDesc (enumZ [(1:ℚ)/2, 3/10, 1/5] 0)).take k).map Prod.fst).sum < (7:ℚ)/10 →
      (sortDesc (enumZ [(1:ℚ)/2, 3/10, 1/5] 0)).getD k (0, -1) ∈
        filterScan (((7:ℚ)/10) / 1024) [(1:ℚ)/2, 3/10, 1/5] 0 0)) :=
  ⟨by norm_num [filterScan],
   c4_filter_completeness [(1:ℚ)/2, 3/10, 1/5] ((7:ℚ)/10) (by norm_num) (by norm_num)
     (by norm_num) (by norm_num) (by norm_num [filterScan])⟩

end MLCSampler
